import Mathlib

/-!
Shallow embedding of the core of `git-together` (src/lib.rs): author-record
parsing (`author`), resolution (`get_authors`), the active roster
(`set_active`, `get_active`, `rotate_active`) and commit attribution
(`signoff`).  Strings are modelled as `List Char`; the injected
configuration store (`Config` trait) as an association list with
first-match lookup, matching the `HashMap`-backed mock's get/set
semantics.  Rust's `str::split` keeps every piece (an empty string splits
into one empty piece), `str::trim` drops leading and trailing whitespace,
and `Vec::join` interleaves the separator; `splitChar`, `trim` and
`joinSep` below reproduce those semantics.
-/

namespace GitTogether

abbrev Str := List Char

/-- Rust `str::split(sep)` on a character separator: every piece is kept,
the result is never empty (`"".split(c)` yields `[""]`). -/
def splitChar (sep : Char) : Str → List Str
  | [] => [[]]
  | c :: cs =>
    if c = sep then [] :: splitChar sep cs
    else
      match splitChar sep cs with
      | [] => [[c]]
      | p :: ps => (c :: p) :: ps

/-- Rust `Vec::join(sep)` for a one-character separator. -/
def joinSep (sep : Char) : List Str → Str
  | [] => []
  | [p] => p
  | p :: q :: ps => p ++ sep :: joinSep sep (q :: ps)

/-- Rust `str::trim`: drop leading and trailing whitespace. -/
def trim (s : Str) : Str :=
  ((s.dropWhile Char.isWhitespace).reverse.dropWhile Char.isWhitespace).reverse

/-- The error kinds of `errors.rs` reached by the core: a missing store key
(the mock's "name not found" error), `AuthorNotFound(initials)` and
`InvalidAuthor(raw)`. -/
inductive GtError
  | keyNotFound : Str → GtError
  | authorNotFound : Str → GtError
  | invalidAuthor : Str → GtError
deriving DecidableEq, Repr

/-- The `Author` struct of lib.rs. -/
structure Author where
  name : Str
  email : Str
deriving DecidableEq, Repr

/-- The injected key-value store (the `Config` trait), as an association
list; `set` prepends and `get` takes the first match, matching map
insert/lookup semantics. -/
abbrev Store := List (Str × Str)

def storeLookup (store : Store) (k : Str) : Option Str :=
  match store with
  | [] => none
  | (k', v) :: rest => if k' = k then some v else storeLookup rest k

/-- `Config::get`: a missing key is an error. -/
def cfgGet (store : Store) (k : Str) : Except GtError Str :=
  match storeLookup store k with
  | some v => .ok v
  | none => .error (.keyNotFound k)

/-- `Config::set`. -/
def cfgSet (store : Store) (k v : Str) : Store := (k, v) :: store

def kActive : Str := "active".toList

def kDomain : Str := "domain".toList

def authorsKey (init : Str) : Str := "authors.".toList ++ init

def kGAN : Str := "GIT_AUTHOR_NAME".toList

def kGAE : Str := "GIT_AUTHOR_EMAIL".toList

def kGCN : Str := "GIT_COMMITTER_NAME".toList

def kGCE : Str := "GIT_COMMITTER_EMAIL".toList

def argSignoff : Str := "--signoff".toList

/-- `GitTogether::author(domain, raw)`: split `raw` on every `;`
(`raw.split(';').collect()`), error when fewer than two pieces, trim the
first piece as the name and the second as the email seed (both must be
non-empty), and append `@domain` to the seed unless it already contains
an `@`. -/
def author (domain raw : Str) : Except GtError Author :=
  match splitChar ';' raw with
  | p0 :: p1 :: _ =>
    let name := trim p0
    if name = [] then .error (.invalidAuthor raw)
    else
      let seed := trim p1
      if seed = [] then .error (.invalidAuthor raw)
      else
        let email := if seed.contains '@' then seed else seed ++ '@' :: domain
        .ok { name := name, email := email }
  | _ => .error (.invalidAuthor raw)

/-- The per-initial body of `get_authors`: fetch `authors.<init>`
(re-signalling a missing key as `AuthorNotFound`), reject an empty raw
record, else parse it. -/
def resolveOne (store : Store) (domain init : Str) : Except GtError Author :=
  match cfgGet store (authorsKey init) with
  | .error _ => .error (.authorNotFound init)
  | .ok raw => if raw = [] then .error (.invalidAuthor raw) else author domain raw

/-- Rust `iter().map(f).collect::<Result<Vec<_>, _>>()`: left-to-right,
first error aborts. -/
def mapExcept (f : α → Except ε β) : List α → Except ε (List β)
  | [] => .ok []
  | a :: l =>
    match f a with
    | .error e => .error e
    | .ok b =>
      match mapExcept f l with
      | .error e => .error e
      | .ok bs => .ok (b :: bs)

/-- `GitTogether::get_authors`: fetch `domain` first (hard error when
missing), then resolve each initial in input order. -/
def get_authors (store : Store) (inits : List Str) : Except GtError (List Author) :=
  match cfgGet store kDomain with
  | .error e => .error e
  | .ok domain => mapExcept (resolveOne store domain) inits

/-- `GitTogether::set_active`: validate via `get_authors`, and only on
success store the `+`-joined initials under `active`.  The pair returns
the store so that the error path's non-mutation is explicit. -/
def set_active (store : Store) (inits : List Str) : Except GtError Unit × Store :=
  match get_authors store inits with
  | .error e => (.error e, store)
  | .ok _ => (.ok (), cfgSet store kActive (joinSep '+' inits))

/-- `GitTogether::get_active`: fetch `active` and split on `+`. -/
def get_active (store : Store) : Except GtError (List Str) :=
  match cfgGet store kActive with
  | .error e => .error e
  | .ok active => .ok (splitChar '+' active)

/-- The in-place rotation inside `rotate_active`: on a non-empty list,
remove the head and push it at the back. -/
def rotate1 : List Str → List Str
  | [] => []
  | a :: rest => rest ++ [a]

/-- `GitTogether::rotate_active`: read the roster, rotate it by one, and
delegate to `set_active`. -/
def rotate_active (store : Store) : Except GtError Unit × Store :=
  match get_active store with
  | .error e => (.error e, store)
  | .ok active => set_active store (rotate1 active)

/-- The observable part of `std::process::Command` that `signoff`
touches: environment bindings (in call order) and appended arguments. -/
structure Cmd where
  env : List (Str × Str)
  args : List Str
deriving DecidableEq, Repr

def envSet (c : Cmd) (k v : Str) : Cmd := { c with env := c.env ++ [(k, v)] }

def addArg (c : Cmd) (a : Str) : Cmd := { c with args := c.args ++ [a] }

/-- `GitTogether::signoff`: read `active`, split on `+`, resolve all
initials; on success bind author variables from index 0, committer
variables and `--signoff` from index 1.  The pair returns the command so
that the error path's non-mutation is explicit. -/
def signoff (store : Store) (cmd : Cmd) : Except GtError Unit × Cmd :=
  match cfgGet store kActive with
  | .error e => (.error e, cmd)
  | .ok active =>
    match get_authors store (splitChar '+' active) with
    | .error e => (.error e, cmd)
    | .ok authors =>
      let cmd1 :=
        match authors.get? 0 with
        | some a => envSet (envSet cmd kGAN a.name) kGAE a.email
        | none => cmd
      let cmd2 :=
        match authors.get? 1 with
        | some c => addArg (envSet (envSet cmd1 kGCN c.name) kGCE c.email) argSignoff
        | none => cmd1
      (.ok (), cmd2)

/-- Whether an `Except` value is a success. -/
def isOkE : Except ε α → Bool
  | .ok _ => true
  | .error _ => false

instance instDecEqExcept [DecidableEq ε] [DecidableEq α] : DecidableEq (Except ε α)
  | .ok a, .ok b =>
    if h : a = b then .isTrue (by rw [h]) else .isFalse (by intro hh; cases hh; exact h rfl)
  | .ok _, .error _ => .isFalse (by intro hh; cases hh)
  | .error _, .ok _ => .isFalse (by intro hh; cases hh)
  | .error e, .error f =>
    if h : e = f then .isTrue (by rw [h]) else .isFalse (by intro hh; cases hh; exact h rfl)

/-- Iterating `rotate_active`, threading the store, stopping at the first
error. -/
def rotIter : Nat → Store → Except GtError Unit × Store
  | 0, store => (.ok (), store)
  | n + 1, store =>
    match rotate_active store with
    | (.ok _, store') => rotIter n store'
    | r => r

/-! Helper lemmas about the string and store primitives. -/

theorem splitChar_ne_nil (sep : Char) (l : Str) : splitChar sep l ≠ [] := by
  induction l with
  | nil => simp [splitChar]
  | cons c cs ih =>
    by_cases hc : c = sep
    · simp [splitChar, hc]
    · simp only [splitChar, if_neg hc]
      cases h : splitChar sep cs <;> simp

theorem splitChar_of_not_mem {sep : Char} {l : Str} (h : sep ∉ l) :
    splitChar sep l = [l] := by
  induction l with
  | nil => rfl
  | cons c cs ih =>
    have hc : ¬ c = sep := by rintro rfl; exact h (List.mem_cons_self _ _)
    have hcs : sep ∉ cs := fun m => h (List.mem_cons_of_mem _ m)
    simp [splitChar, hc, ih hcs]

theorem splitChar_append {sep : Char} {p : Str} (t : Str) (h : sep ∉ p) :
    splitChar sep (p ++ sep :: t) = p :: splitChar sep t := by
  induction p with
  | nil => simp [splitChar]
  | cons c cs ih =>
    have hc : ¬ c = sep := by rintro rfl; exact h (List.mem_cons_self _ _)
    have hcs : sep ∉ cs := fun m => h (List.mem_cons_of_mem _ m)
    simp [splitChar, hc, ih hcs]

theorem splitChar_two_of_mem {sep : Char} {l : Str} (h : sep ∈ l) :
    ∃ p q t, splitChar sep l = p :: q :: t := by
  induction l with
  | nil => cases h
  | cons c cs ih =>
    by_cases hc : c = sep
    · obtain ⟨p, ps, hps⟩ := List.exists_cons_of_ne_nil (splitChar_ne_nil sep cs)
      exact ⟨[], p, ps, by simp [splitChar, hc, hps]⟩
    · have hm : sep ∈ cs := by
        rcases List.mem_cons.mp h with h1 | h1
        · exact absurd h1.symm hc
        · exact h1
      obtain ⟨p, q, t, hpq⟩ := ih hm
      exact ⟨c :: p, q, t, by simp [splitChar, hc, hpq]⟩

theorem joinSep_splitChar (sep : Char) (l : Str) :
    joinSep sep (splitChar sep l) = l := by
  induction l with
  | nil => rfl
  | cons c cs ih =>
    obtain ⟨p, ps, hps⟩ := List.exists_cons_of_ne_nil (splitChar_ne_nil sep cs)
    rw [hps] at ih
    by_cases hc : c = sep
    · have hsp : splitChar sep (c :: cs) = [] :: p :: ps := by simp [splitChar, hc, hps]
      rw [hsp]
      show sep :: joinSep sep (p :: ps) = c :: cs
      rw [ih, hc]
    · have hsp : splitChar sep (c :: cs) = (c :: p) :: ps := by simp [splitChar, hc, hps]
      rw [hsp]
      cases ps with
      | nil =>
        show c :: p = c :: cs
        rw [show p = cs from ih]
      | cons q qs =>
        show (c :: p) ++ sep :: joinSep sep (q :: qs) = c :: cs
        rw [List.cons_append]
        exact congrArg (c :: ·) ih

theorem splitChar_joinSep {sep : Char} :
    ∀ {parts : List Str}, parts ≠ [] → (∀ p ∈ parts, sep ∉ p) →
      splitChar sep (joinSep sep parts) = parts
  | [], h, _ => absurd rfl h
  | [p], _, hall => by
      simp [joinSep, splitChar_of_not_mem (hall p (by simp))]
  | p :: q :: ps, _, hall => by
      have h1 : sep ∉ p := hall p (by simp)
      have hqs : (q :: ps : List Str) ≠ [] := by simp
      have ih := splitChar_joinSep hqs (fun r hr => hall r (by simp [hr]))
      simp [joinSep, splitChar_append _ h1, ih]

theorem mapExcept_ok_spec (f : α → Except ε β) :
    ∀ (l : List α) (bs : List β), mapExcept f l = .ok bs →
      bs.length = l.length ∧
      ∀ (k : Nat) (h1 : k < l.length) (h2 : k < bs.length),
        f (l.get ⟨k, h1⟩) = .ok (bs.get ⟨k, h2⟩)
  | [], bs, h => by
      simp only [mapExcept, Except.ok.injEq] at h
      subst h
      exact ⟨rfl, fun k h1 _ => absurd h1 (by simp)⟩
  | a :: l, bs, h => by
      cases hfa : f a with
      | error e => simp [mapExcept, hfa] at h
      | ok b =>
        cases hml : mapExcept f l with
        | error e => simp [mapExcept, hfa, hml] at h
        | ok bs' =>
          simp only [mapExcept, hfa, hml, Except.ok.injEq] at h
          subst h
          obtain ⟨hlen, hpt⟩ := mapExcept_ok_spec f l bs' hml
          refine ⟨by simp [hlen], ?_⟩
          intro k h1 h2
          cases k with
          | zero => simpa using hfa
          | succ k => simpa using hpt k (by simpa using h1) (by simpa using h2)

theorem mapExcept_isOk (f : α → Except ε β) (l : List α) :
    isOkE (mapExcept f l) = true ↔ ∀ a ∈ l, isOkE (f a) = true := by
  induction l with
  | nil => simp [mapExcept, isOkE]
  | cons a l ih =>
    simp only [List.forall_mem_cons, ← ih]
    cases hfa : f a with
    | error e => simp [mapExcept, hfa, isOkE]
    | ok b =>
      cases hml : mapExcept f l with
      | error e => simp [mapExcept, hfa, hml, isOkE]
      | ok bs => simp [mapExcept, hfa, hml, isOkE]

theorem storeLookup_cfgSet_self (store : Store) (k v : Str) :
    storeLookup (cfgSet store k v) k = some v := by
  simp [cfgSet, storeLookup]

theorem storeLookup_cfgSet_ne (store : Store) (k v k' : Str) (h : k' ≠ k) :
    storeLookup (cfgSet store k v) k' = storeLookup store k' := by
  simp [cfgSet, storeLookup, if_neg (Ne.symm h)]

theorem kDomain_ne_kActive : kDomain ≠ kActive := by decide

theorem authorsKey_ne_kActive (i : Str) : authorsKey i ≠ kActive := by
  intro h
  have h2 : ('a' :: 'u' :: 't' :: 'h' :: 'o' :: 'r' :: 's' :: '.' :: i) =
      ('a' :: 'c' :: 't' :: 'i' :: 'v' :: 'e' :: []) := h
  injection h2 with _ h3
  injection h3 with h4 _
  exact absurd h4 (by decide)

theorem get_authors_ok_iff (store : Store) (inits : List Str) :
    isOkE (get_authors store inits) = true ↔
      ∃ d, cfgGet store kDomain = .ok d ∧
        ∀ i ∈ inits, isOkE (resolveOne store d i) = true := by
  cases hd : cfgGet store kDomain with
  | error e => simp [get_authors, hd, isOkE]
  | ok d => simp [get_authors, hd, mapExcept_isOk]

theorem get_authors_mem_ok {store : Store} {inits : List Str}
    (h : isOkE (get_authors store inits) = true) :
    ∀ i ∈ inits, isOkE (get_authors store [i]) = true := by
  rw [get_authors_ok_iff] at h
  obtain ⟨d, hd, hall⟩ := h
  intro i hi
  rw [get_authors_ok_iff]
  exact ⟨d, hd, fun j hj => by rw [List.mem_singleton.mp hj]; exact hall i hi⟩

theorem get_authors_of_forall {store : Store} {inits : List Str} (hne : inits ≠ [])
    (hall : ∀ i ∈ inits, isOkE (get_authors store [i]) = true) :
    isOkE (get_authors store inits) = true := by
  obtain ⟨i0, rest, rfl⟩ := List.exists_cons_of_ne_nil hne
  have h0 := hall i0 (by simp)
  rw [get_authors_ok_iff] at h0
  obtain ⟨d, hd, _⟩ := h0
  rw [get_authors_ok_iff]
  refine ⟨d, hd, fun i hi => ?_⟩
  have hone := hall i hi
  rw [get_authors_ok_iff] at hone
  obtain ⟨d', hd', hp⟩ := hone
  have hdd : d' = d := by
    rw [hd] at hd'
    injection hd' with hdd
    exact hdd.symm
  exact hdd ▸ hp i (by simp)

theorem get_authors_cfgSet_active (store : Store) (v : Str) (inits : List Str) :
    get_authors (cfgSet store kActive v) inits = get_authors store inits := by
  have hd : cfgGet (cfgSet store kActive v) kDomain = cfgGet store kDomain := by
    simp [cfgGet, storeLookup_cfgSet_ne _ _ _ _ kDomain_ne_kActive]
  have hr : ∀ d, resolveOne (cfgSet store kActive v) d = resolveOne store d := by
    intro d
    funext i
    simp [resolveOne, cfgGet, storeLookup_cfgSet_ne _ _ _ _ (authorsKey_ne_kActive i)]
  rw [get_authors, get_authors, hd]
  cases cfgGet store kDomain with
  | error e => rfl
  | ok d =>
    show mapExcept (resolveOne (cfgSet store kActive v) d) inits =
      mapExcept (resolveOne store d) inits
    rw [hr d]

/-! Concrete fixtures, mirroring the mock store of the source's tests. -/

def sampleStore : Store :=
  [(kDomain, "rocinante.com".toList),
   (authorsKey "jh".toList, "James Holden; jholden".toList),
   (authorsKey "nn".toList, "Naomi Nagata; nnagata".toList),
   (authorsKey "bd".toList, "Bobbie Draper; bdraper@mars.mil".toList)]

def rosterStore : Store := (kActive, "jh+nn".toList) :: sampleStore

/-! The claims. -/

/-- C1: `set_active` validates every initial through `get_authors` before
persisting: when some initial fails resolution it returns an error and the
value stored under `active` is unchanged (the store's set is never
invoked); and whenever it succeeds, every initial resolves and the
`+`-joined initials are stored under `active`. -/
theorem setActive_atomic (store : Store) (inits : List Str) :
    ((∃ i ∈ inits, isOkE (get_authors store [i]) = false) →
      isOkE (set_active store inits).1 = false ∧
      storeLookup (set_active store inits).2 kActive = storeLookup store kActive)
    ∧ ∀ store2, set_active store inits = (.ok (), store2) →
      (∀ i ∈ inits, isOkE (get_authors store [i]) = true) ∧
      storeLookup store2 kActive = some (joinSep '+' inits) := by
  constructor
  · rintro ⟨i, hi, hfail⟩
    cases hga : get_authors store inits with
    | error e => simp [set_active, hga, isOkE]
    | ok l =>
      exfalso
      have hok0 : isOkE (get_authors store inits) = true := by simp [hga, isOkE]
      have hok := get_authors_mem_ok hok0 i hi
      rw [hfail] at hok
      cases hok
  · intro store2 h
    cases hga : get_authors store inits with
    | error e => simp [set_active, hga] at h
    | ok l =>
      simp only [set_active, hga] at h
      have h2 := congrArg Prod.snd h
      simp only at h2
      refine ⟨get_authors_mem_ok (by simp [hga, isOkE]), ?_⟩
      rw [← h2]
      exact storeLookup_cfgSet_self store kActive (joinSep '+' inits)

/-- C6: `author` fails exactly when the record has no `;`, or the trimmed
first piece (the name) is empty, or the trimmed second piece (the email
seed) is empty — the empty record falls under the no-`;` case — and the
only error it signals is `InvalidAuthor` carrying the raw record; in
every other case it succeeds. -/
theorem author_error_iff (d raw : Str) :
    ((∃ a, author d raw = .ok a) ∨ author d raw = .error (.invalidAuthor raw))
    ∧ (author d raw = .error (.invalidAuthor raw) ↔
        (';' ∉ raw ∨ trim ((splitChar ';' raw).getD 0 []) = []
          ∨ trim ((splitChar ';' raw).getD 1 []) = [])) := by
  by_cases hm : ';' ∈ raw
  · obtain ⟨p, q, t, hpq⟩ := splitChar_two_of_mem hm
    constructor
    · by_cases hn : trim p = []
      · right; simp [author, hpq, hn]
      · by_cases hs : trim q = []
        · right; simp [author, hpq, hn, hs]
        · exact Or.inl ⟨⟨trim p, if (trim q).contains '@' then trim q else trim q ++ '@' :: d⟩,
            by simp [author, hpq, hn, hs]⟩
    · rw [hpq]
      simp only [List.getD_cons_zero, List.getD_cons_succ]
      constructor
      · intro he
        by_cases hn : trim p = []
        · exact Or.inr (Or.inl hn)
        · by_cases hs : trim q = []
          · exact Or.inr (Or.inr hs)
          · exfalso
            simp [author, hpq, hn, hs] at he
      · intro hc
        rcases hc with hc | hc | hc
        · exact absurd hm hc
        · simp [author, hpq, hc]
        · by_cases hn : trim p = []
          · simp [author, hpq, hn]
          · simp [author, hpq, hn, hc]
  · have hsp := splitChar_of_not_mem hm
    constructor
    · right
      simp [author, hsp]
    · simp [author, hsp, hm]

/-- C7: whenever `signoff` fails — the `active` key absent or some initial
failing resolution — the command builder comes back completely
unmodified: every mutation happens only after all authors resolved. -/
theorem signoff_no_mutation (store : Store) (cmd : Cmd)
    (h : isOkE (signoff store cmd).1 = false) :
    (signoff store cmd).2 = cmd := by
  cases hac : cfgGet store kActive with
  | error e => simp [signoff, hac]
  | ok active =>
    cases hga : get_authors store (splitChar '+' active) with
    | error e => simp [signoff, hac, hga]
    | ok auths =>
      exfalso
      simp [signoff, hac, hga, isOkE] at h

theorem signoff_no_mutation_witness :
    isOkE (signoff ([] : Store) ⟨[], []⟩).1 = false ∧
    (signoff ([] : Store) ⟨[], []⟩).2 = ⟨[], []⟩ :=
  ⟨by decide, signoff_no_mutation [] ⟨[], []⟩ (by decide)⟩

/-- C9: a successful `get_authors` returns one author per initial in the
same order — the k-th author is exactly the resolution of the k-th
initial — so duplicate initials are resolved independently and yield
equal `Author` values at their respective positions, with no
deduplication. -/
theorem get_authors_order (store : Store) (inits : List Str) (auths : List Author)
    (h : get_authors store inits = .ok auths) :
    auths.length = inits.length
    ∧ (∀ (k : Nat) (h1 : k < inits.length) (h2 : k < auths.length),
        get_authors store [inits.get ⟨k, h1⟩] = .ok [auths.get ⟨k, h2⟩])
    ∧ (∀ (j k : Nat) (hj : j < inits.length) (hk : k < inits.length)
        (hj2 : j < auths.length) (hk2 : k < auths.length),
        inits.get ⟨j, hj⟩ = inits.get ⟨k, hk⟩ →
        auths.get ⟨j, hj2⟩ = auths.get ⟨k, hk2⟩) := by
  cases hd : cfgGet store kDomain with
  | error e => simp [get_authors, hd] at h
  | ok d =>
    simp only [get_authors, hd] at h
    obtain ⟨hlen, hpt⟩ := mapExcept_ok_spec _ _ _ h
    refine ⟨hlen, ?_, ?_⟩
    · intro k h1 h2
      have hk := hpt k h1 h2
      simp only [List.get_eq_getElem] at hk
      simp [get_authors, hd, mapExcept, hk]
    · intro j k hj hk hj2 hk2 he
      have e1 := hpt j hj hj2
      have e2 := hpt k hk hk2
      rw [he] at e1
      rw [e1] at e2
      exact Except.ok.inj e2

theorem get_authors_order_witness :
    get_authors sampleStore ["jh".toList, "jh".toList] =
      .ok [⟨"James Holden".toList, "jholden@rocinante.com".toList⟩,
           ⟨"James Holden".toList, "jholden@rocinante.com".toList⟩] ∧
    ([⟨"James Holden".toList, "jholden@rocinante.com".toList⟩,
      ⟨"James Holden".toList, "jholden@rocinante.com".toList⟩] : List Author).length =
      (["jh".toList, "jh".toList] : List Str).length :=
  ⟨by decide,
   (get_authors_order sampleStore ["jh".toList, "jh".toList] _ (by decide)).1⟩

/-- C10: splitting any stored `active` value on `+` yields at least one
initial, so `get_active` (and the roster built the same way inside
`signoff`) never produces an empty roster; the empty stored string yields
the one-element roster containing the empty initial. -/
theorem getActive_roster_nonempty (store : Store) (act : Str)
    (h : storeLookup store kActive = some act) :
    (∃ r rest, get_active store = .ok (r :: rest)) ∧
    (act = [] → get_active store = .ok [[]]) := by
  have hga : get_active store = .ok (splitChar '+' act) := by
    simp [get_active, cfgGet, h]
  constructor
  · obtain ⟨p, ps, hps⟩ := List.exists_cons_of_ne_nil (splitChar_ne_nil '+' act)
    exact ⟨p, ps, by rw [hga, hps]⟩
  · rintro rfl
    rw [hga]
    rfl

theorem getActive_roster_nonempty_witness :
    (∃ r rest, get_active [(kActive, ([] : Str))] = .ok (r :: rest)) ∧
    (([] : Str) = [] → get_active [(kActive, ([] : Str))] = .ok [[]]) :=
  getActive_roster_nonempty [(kActive, ([] : Str))] [] (by decide)

/-- C3: on a stored roster whose initials all resolve, `signoff` binds
nothing for an empty author list, only the author variables when exactly
one author resolves, and additionally the committer variables plus the
`--signoff` argument from the second author onwards — authors at index 2
and beyond are resolved but contribute no binding and no argument. -/
theorem signoff_attribution (store : Store) (cmd : Cmd) (act : Str) (auths : List Author)
    (h1 : storeLookup store kActive = some act)
    (h2 : get_authors store (splitChar '+' act) = .ok auths) :
    auths.length = (splitChar '+' act).length
    ∧ (auths = [] → signoff store cmd = (.ok (), cmd))
    ∧ (∀ a0, auths = [a0] → signoff store cmd =
        (.ok (), ⟨cmd.env ++ [(kGAN, a0.name), (kGAE, a0.email)], cmd.args⟩))
    ∧ (∀ a0 a1 rest, auths = a0 :: a1 :: rest → signoff store cmd =
        (.ok (), ⟨cmd.env ++ [(kGAN, a0.name), (kGAE, a0.email),
                              (kGCN, a1.name), (kGCE, a1.email)],
          cmd.args ++ [argSignoff]⟩)) := by
  have hac : cfgGet store kActive = .ok act := by simp [cfgGet, h1]
  have hlen : auths.length = (splitChar '+' act).length := by
    cases hd : cfgGet store kDomain with
    | error e => simp [get_authors, hd] at h2
    | ok d =>
      simp only [get_authors, hd] at h2
      exact (mapExcept_ok_spec _ _ _ h2).1
  refine ⟨hlen, ?_, ?_, ?_⟩
  · rintro rfl
    simp [signoff, hac, h2]
  · rintro a0 rfl
    simp [signoff, hac, h2, envSet]
  · rintro a0 a1 rest rfl
    simp [signoff, hac, h2, envSet, addArg, List.append_assoc]

theorem signoff_attribution_witness :
    ([⟨"James Holden".toList, "jholden@rocinante.com".toList⟩,
      ⟨"Naomi Nagata".toList, "nnagata@rocinante.com".toList⟩] : List Author).length =
      (splitChar '+' "jh+nn".toList).length ∧
    signoff rosterStore ⟨[], []⟩ =
      (.ok (), ⟨[(kGAN, "James Holden".toList), (kGAE, "jholden@rocinante.com".toList),
                 (kGCN, "Naomi Nagata".toList), (kGCE, "nnagata@rocinante.com".toList)],
        [argSignoff]⟩) := by
  have h := signoff_attribution rosterStore ⟨[], []⟩ "jh+nn".toList
    [⟨"James Holden".toList, "jholden@rocinante.com".toList⟩,
     ⟨"Naomi Nagata".toList, "nnagata@rocinante.com".toList⟩] (by decide) (by decide)
  exact ⟨h.1, by simpa using h.2.2.2 _ _ [] rfl⟩

/-- Modelled from the spec: the AuthorResolver algorithm exactly as §4.1
words it, with step 1 splitting `raw` on the FIRST `;` into at most two
parts, so that everything after the first `;` becomes the second part;
steps 2-5 are unchanged.  It exists only to compare the spec's description
of the split with the code's `author`. -/
def splitFirst (sep : Char) : Str → List Str
  | [] => [[]]
  | c :: cs =>
    if c = sep then [[], cs]
    else
      match splitFirst sep cs with
      | [] => [[c]]
      | p :: ps => (c :: p) :: ps

def authorSpecModel (domain raw : Str) : Except GtError Author :=
  match splitFirst ';' raw with
  | p0 :: p1 :: _ =>
    let name := trim p0
    if name = [] then .error (.invalidAuthor raw)
    else
      let seed := trim p1
      if seed = [] then .error (.invalidAuthor raw)
      else
        let email := if seed.contains '@' then seed else seed ++ '@' :: domain
        .ok { name := name, email := email }
  | _ => .error (.invalidAuthor raw)

theorem author_remainder_counterexample :
    author "d".toList "N;a;b".toList = .ok ⟨"N".toList, "a@d".toList⟩ ∧
    authorSpecModel "d".toList "N;a;b".toList = .ok ⟨"N".toList, "a;b@d".toList⟩ ∧
    author "d".toList "N;a;b".toList ≠ authorSpecModel "d".toList "N;a;b".toList := by
  refine ⟨by decide, by decide, by decide⟩

/-- C2 (amended): the resolver splits the record on EVERY `;`; the piece
before the first `;` (trimmed) becomes the name and the piece between the
first and second `;` (trimmed) becomes the email seed, so on a
well-formed record any content after a second `;` is ignored rather than
kept as part of the seed; a record with no `;` at all is an error even if
a name exists. -/
theorem author_ignores_extra_parts (d nm sd rest : Str)
    (hn : ';' ∉ nm) (hs : ';' ∉ sd) (hn2 : trim nm ≠ []) (hs2 : trim sd ≠ []) :
    author d (nm ++ ';' :: (sd ++ ';' :: rest)) = author d (nm ++ ';' :: sd)
    ∧ ∀ raw : Str, ';' ∉ raw → author d raw = .error (.invalidAuthor raw) := by
  constructor
  · have hsp1 : splitChar ';' (nm ++ ';' :: (sd ++ ';' :: rest)) =
        nm :: sd :: splitChar ';' rest := by
      rw [splitChar_append _ hn, splitChar_append _ hs]
    have hsp2 : splitChar ';' (nm ++ ';' :: sd) = nm :: [sd] := by
      rw [splitChar_append _ hn, splitChar_of_not_mem hs]
    simp [author, hsp1, hsp2, hn2, hs2]
  · intro raw hraw
    simp [author, splitChar_of_not_mem hraw]

theorem author_ignores_extra_parts_witness :
    author "d".toList ("N".toList ++ ';' :: ("a".toList ++ ';' :: "b".toList)) =
      author "d".toList ("N".toList ++ ';' :: "a".toList) ∧
    ∀ raw : Str, ';' ∉ raw →
      author "d".toList raw = .error (.invalidAuthor raw) :=
  author_ignores_extra_parts "d".toList "N".toList "a".toList "b".toList
    (by decide) (by decide) (by decide) (by decide)

theorem author_verbatim_counterexample :
    trim "N".toList ≠ [] ∧ trim "u@h;x".toList ≠ [] ∧
    ("u@h;x".toList).contains '@' = true ∧
    author "d".toList ("N".toList ++ ';' :: "u@h;x".toList) ≠
      .ok ⟨trim "N".toList, trim "u@h;x".toList⟩ := by
  refine ⟨by decide, by decide, by decide, by decide⟩

/-- C5 (amended): for a record built from a name and an email seed that
themselves contain no `;` (a `;` inside either field would shift the
`split[1]` piece the code reads), with both non-empty after trimming,
`author` succeeds with the trimmed name, and the email is the trimmed
seed verbatim when it contains an `@` (independent of the domain) and the
trimmed seed plus `@` plus the domain otherwise. -/
theorem author_domain_rule (d nm sd : Str)
    (hn : ';' ∉ nm) (hs : ';' ∉ sd) (hn2 : trim nm ≠ []) (hs2 : trim sd ≠ []) :
    author d (nm ++ ';' :: sd) =
      .ok ⟨trim nm, if (trim sd).contains '@' then trim sd else trim sd ++ '@' :: d⟩ := by
  have hsp : splitChar ';' (nm ++ ';' :: sd) = nm :: [sd] := by
    rw [splitChar_append _ hn, splitChar_of_not_mem hs]
  simp [author, hsp, hn2, hs2]

theorem author_domain_rule_witness :
    author "d".toList ("N".toList ++ ';' :: " loc ".toList) =
      .ok ⟨trim "N".toList,
        if (trim " loc ".toList).contains '@' then trim " loc ".toList
        else trim " loc ".toList ++ '@' :: "d".toList⟩ :=
  author_domain_rule "d".toList "N".toList " loc ".toList
    (by decide) (by decide) (by decide) (by decide)

theorem rotate_active_empty_counterexample :
    storeLookup [(kActive, ([] : Str)), (kDomain, "d".toList)] kActive = some [] ∧
    isOkE (rotate_active [(kActive, ([] : Str)), (kDomain, "d".toList)]).1 = false := by
  refine ⟨by decide, by decide⟩

/-- C4 (amended): the roster read back by `rotate_active` is never the
empty list — splitting any stored `active` value on `+` yields at least
one initial — so the empty-list branch of the rotation is unreachable and
`rotate_active` always delegates to `set_active` with the rotated roster,
whose validation every rotated initial must pass; in particular an empty
stored `active` value yields the roster containing just the empty initial
and is not an unconditional successful no-op. -/
theorem rotate_active_delegates (store : Store) (act : Str)
    (h : storeLookup store kActive = some act) :
    splitChar '+' act ≠ [] ∧
    rotate_active store = set_active store (rotate1 (splitChar '+' act)) := by
  refine ⟨splitChar_ne_nil '+' act, ?_⟩
  simp [rotate_active, get_active, cfgGet, h]

theorem rotate_active_delegates_witness :
    splitChar '+' ([] : Str) ≠ [] ∧
    rotate_active [(kActive, ([] : Str)), (kDomain, "d".toList)] =
      set_active [(kActive, ([] : Str)), (kDomain, "d".toList)]
        (rotate1 (splitChar '+' ([] : Str))) :=
  rotate_active_delegates [(kActive, ([] : Str)), (kDomain, "d".toList)] [] (by decide)

/-! Machinery for the n-fold rotation claim. -/

theorem mem_of_mem_rotate1 {l : List Str} {i : Str} (h : i ∈ rotate1 l) : i ∈ l := by
  cases l with
  | nil => simp [rotate1] at h
  | cons a r =>
    simp only [rotate1, List.mem_append, List.mem_singleton] at h
    rcases h with h | h
    · exact List.mem_cons_of_mem _ h
    · simp [h]

theorem rotate1_ne_nil {l : List Str} (h : l ≠ []) : rotate1 l ≠ [] := by
  cases l with
  | nil => exact absurd rfl h
  | cons a r => simp [rotate1]

theorem rotate1_eq_rotate (l : List Str) : rotate1 l = l.rotate 1 := by
  cases l with
  | nil => simp [rotate1]
  | cons a r => simp [rotate1, List.rotate_cons_succ, List.rotate_zero]

theorem rotate1_iter (k : Nat) (l : List Str) : rotate1^[k] l = l.rotate k := by
  induction k generalizing l with
  | zero => simp
  | succ k ih =>
    rw [Function.iterate_succ_apply, rotate1_eq_rotate, ih, List.rotate_rotate,
      Nat.add_comm]

theorem rotate1_iterate_length (l : List Str) : rotate1^[l.length] l = l := by
  rw [rotate1_iter, List.rotate_length]

theorem set_active_of_ok {store : Store} {inits : List Str}
    (hok : isOkE (get_authors store inits) = true) :
    set_active store inits = (.ok (), cfgSet store kActive (joinSep '+' inits)) := by
  cases hga : get_authors store inits with
  | error e => rw [hga] at hok; cases hok
  | ok l => simp [set_active, hga]

theorem rotIter_inv :
    ∀ (k : Nat) (store : Store) (roster : List Str),
      roster ≠ [] →
      (∀ p ∈ roster, '+' ∉ p) →
      (∀ i ∈ roster, isOkE (get_authors store [i]) = true) →
      storeLookup store kActive = some (joinSep '+' roster) →
      (rotIter k store).1 = .ok () ∧
      storeLookup (rotIter k store).2 kActive =
        some (joinSep '+' (rotate1^[k] roster)) ∧
      ∀ key, key ≠ kActive →
        storeLookup (rotIter k store).2 key = storeLookup store key := by
  intro k
  induction k with
  | zero =>
    intro store roster hne hplus hres hact
    exact ⟨rfl, by rw [Function.iterate_zero_apply]; exact hact, fun key hk => rfl⟩
  | succ k ih =>
    intro store roster hne hplus hres hact
    have hsp : splitChar '+' (joinSep '+' roster) = roster := splitChar_joinSep hne hplus
    have hrne : rotate1 roster ≠ [] := rotate1_ne_nil hne
    have hok : isOkE (get_authors store (rotate1 roster)) = true :=
      get_authors_of_forall hrne (fun i hi => hres i (mem_of_mem_rotate1 hi))
    have hstep : rotate_active store =
        (.ok (), cfgSet store kActive (joinSep '+' (rotate1 roster))) := by
      have h0 : rotate_active store = set_active store (rotate1 (splitChar '+' (joinSep '+' roster))) := by
        simp [rotate_active, get_active, cfgGet, hact]
      rw [h0, hsp, set_active_of_ok hok]
    have hiter : rotIter (k + 1) store =
        rotIter k (cfgSet store kActive (joinSep '+' (rotate1 roster))) := by
      simp [rotIter, hstep]
    have hres' : ∀ i ∈ rotate1 roster,
        isOkE (get_authors (cfgSet store kActive (joinSep '+' (rotate1 roster))) [i]) = true := by
      intro i hi
      rw [get_authors_cfgSet_active]
      exact hres i (mem_of_mem_rotate1 hi)
    have hplus' : ∀ p ∈ rotate1 roster, '+' ∉ p :=
      fun p hp => hplus p (mem_of_mem_rotate1 hp)
    have hact' : storeLookup (cfgSet store kActive (joinSep '+' (rotate1 roster))) kActive =
        some (joinSep '+' (rotate1 roster)) := storeLookup_cfgSet_self _ _ _
    obtain ⟨hA, hB, hC⟩ := ih _ (rotate1 roster) hrne hplus' hres' hact'
    refine ⟨by rw [hiter]; exact hA, ?_, ?_⟩
    · rw [hiter, hB, Function.iterate_succ_apply]
    · intro key hk
      rw [hiter, hC key hk, storeLookup_cfgSet_ne _ _ _ _ hk]

/-- C8: on a stored roster whose initials all resolve and contain no `+`,
`rotate_active` succeeds and rewrites the stored value to the `+`-join of
the single left-rotation of the roster (which reads back as exactly that
rotated roster), and applying `rotate_active` once per roster entry
restores the original stored `active` value. -/
theorem rotate_active_left_rotates (store : Store) (act : Str)
    (h1 : storeLookup store kActive = some act)
    (h3 : ∀ p ∈ splitChar '+' act, '+' ∉ p)
    (h4 : ∀ i ∈ splitChar '+' act, isOkE (get_authors store [i]) = true) :
    (rotate_active store).1 = .ok ()
    ∧ storeLookup (rotate_active store).2 kActive =
        some (joinSep '+' (rotate1 (splitChar '+' act)))
    ∧ splitChar '+' (joinSep '+' (rotate1 (splitChar '+' act))) =
        rotate1 (splitChar '+' act)
    ∧ (rotIter (splitChar '+' act).length store).1 = .ok ()
    ∧ storeLookup (rotIter (splitChar '+' act).length store).2 kActive = some act := by
  have hne := splitChar_ne_nil '+' act
  have hjoin : joinSep '+' (splitChar '+' act) = act := joinSep_splitChar '+' act
  have hact : storeLookup store kActive = some (joinSep '+' (splitChar '+' act)) := by
    rw [hjoin]; exact h1
  have hrne : rotate1 (splitChar '+' act) ≠ [] := rotate1_ne_nil hne
  have hok : isOkE (get_authors store (rotate1 (splitChar '+' act))) = true :=
    get_authors_of_forall hrne (fun i hi => h4 i (mem_of_mem_rotate1 hi))
  have hstep : rotate_active store =
      (.ok (), cfgSet store kActive (joinSep '+' (rotate1 (splitChar '+' act)))) := by
    have h0 : rotate_active store = set_active store (rotate1 (splitChar '+' act)) := by
      simp [rotate_active, get_active, cfgGet, h1]
    rw [h0, set_active_of_ok hok]
  obtain ⟨hA, hB, _⟩ :=
    rotIter_inv (splitChar '+' act).length store (splitChar '+' act) hne h3 h4 hact
  refine ⟨by rw [hstep], ?_, ?_, hA, ?_⟩
  · rw [hstep]
    exact storeLookup_cfgSet_self _ _ _
  · exact splitChar_joinSep hrne (fun p hp => h3 p (mem_of_mem_rotate1 hp))
  · rw [hB, rotate1_iterate_length, hjoin]

theorem rotate_active_left_rotates_witness :
    (rotate_active rosterStore).1 = .ok ()
    ∧ storeLookup (rotate_active rosterStore).2 kActive =
        some (joinSep '+' (rotate1 (splitChar '+' "jh+nn".toList)))
    ∧ splitChar '+' (joinSep '+' (rotate1 (splitChar '+' "jh+nn".toList))) =
        rotate1 (splitChar '+' "jh+nn".toList)
    ∧ (rotIter (splitChar '+' "jh+nn".toList).length rosterStore).1 = .ok ()
    ∧ storeLookup (rotIter (splitChar '+' "jh+nn".toList).length rosterStore).2 kActive =
        some "jh+nn".toList :=
  rotate_active_left_rotates rosterStore "jh+nn".toList (by decide) (by decide) (by decide)

end GitTogether
